import Mathlib

set_option linter.unusedVariables false

/-!
Verification development for the argument-parsing engine of the nokari
repository (`src/nokari/utils/parser.py`).  The Python code is shallowly
embedded: dictionaries become association lists with dictionary semantics
(insertion order, in-place update), Python runtime errors become an
explicit `Err` value threaded through `Except`, and the external
`StringView` tokenizer (whose source file is not in the repository
snapshot) is modelled from the specification's tokenizer contract.
-/

namespace Nokari

/-- Runtime values stored in the parse-session dictionary; Python
`Union[str, List[str], bool, None]`. -/
inductive PVal where
  | vStr (s : String)
  | vList (l : List String)
  | vBool (b : Bool)
  | vNone
deriving DecidableEq, Repr

/-- Python exceptions the embedded code can raise:
`IndexError` (string index out of range), `NameError`/`UnboundLocalError`
(reference to a local variable that was never assigned), `KeyError`
(missing dictionary key), and an uncaught quote error escaping the
tokenizer recovery path.  `fuel` is an artifact of the bounded loop
embedding and is never produced for inputs the theorems touch. -/
inductive Err where
  | indexError
  | nameError
  | keyError
  | quoteError
  | fuel
deriving DecidableEq, Repr

/-- Python truthiness of a `PVal`. -/
def truthy : PVal → Bool
  | .vStr s => !s.isEmpty
  | .vList l => !l.isEmpty
  | .vBool b => b
  | .vNone => false

/-- Keys of the parse-session dictionary `parser.data`: Python uses both
`None` and strings as keys there. -/
abbrev DKey := Option String

/-- The parse-session dictionary, as an insertion-ordered association list
(Python dict semantics). -/
abbrev Data := List (DKey × PVal)

/-- Dictionary read: first (unique) binding of the key. -/
def dGet : Data → DKey → Option PVal
  | [], _ => none
  | (k, v) :: rest, key => if k = key then some v else dGet rest key

/-- Dictionary write: update in place if present, else append (Python
dict insertion-order semantics). -/
def dSet : Data → DKey → PVal → Data
  | [], key, val => [(key, val)]
  | (k, v) :: rest, key, val =>
    if k = key then (k, val) :: rest else (k, v) :: dSet rest key val

/-- Dictionary `pop`: value and the remaining dictionary, or `none` when
the key is absent. -/
def dPop : Data → DKey → Option (PVal × Data)
  | [], _ => none
  | (k, v) :: rest, key =>
    if k = key then some (v, rest)
    else match dPop rest key with
      | some (pv, d) => some (pv, (k, v) :: d)
      | none => none

/-- The result record (`SimpleNamespace(**{k: v for k, v in data.items()
if k is not None})`): string-keyed fields in insertion order. -/
abbrev Record := List (String × PVal)

/-- Field lookup in a result record. -/
def rGet : Record → String → Option PVal
  | [], _ => none
  | (k, v) :: rest, key => if k = key then some v else rGet rest key

/-- Python `" ".join(l)`. -/
def joinSpace : List String → String
  | [] => ""
  | [s] => s
  | s :: rest => s ++ " " ++ joinSpace rest

/-- Python `"=".join(l)`. -/
def joinEqS : List String → String
  | [] => ""
  | [s] => s
  | s :: rest => s ++ "=" ++ joinEqS rest

/-- Python `s.lower()` (ASCII case, which is all the code relies on). -/
def pyLower (s : String) : String := ⟨s.data.map Char.toLower⟩

/-- Python `s.lstrip("-")`. -/
def pyLstripDash (s : String) : String := ⟨s.data.dropWhile (· = '-')⟩

/-- Python `s.strip()`. -/
def pyStrip (s : String) : String :=
  ⟨((s.data.dropWhile Char.isWhitespace).reverse.dropWhile Char.isWhitespace).reverse⟩

/-- One character of Python `s.replace("-", "_")`. -/
def replDashChar (c : Char) : Char := if c = '-' then '_' else c

/-- Python `s.replace("-", "_")` (single-character pattern, hence a
character-wise map). -/
def pyReplDash (s : String) : String := ⟨s.data.map replDashChar⟩

/-- Python `s.replace(f, "")` for a single-character `f`: removal of every
occurrence of that character. -/
def pyRemoveChar (s : String) (f : Char) : String := ⟨s.data.filter (· ≠ f)⟩

/-- Helper for Python `s.split("=")`. -/
def splitEqAux : List Char → List Char → List String
  | [], cur => [⟨cur.reverse⟩]
  | c :: cs, cur =>
    if c = '=' then ⟨cur.reverse⟩ :: splitEqAux cs [] else splitEqAux cs (c :: cur)

/-- Python `s.split("=")`. -/
def splitOnEq (s : String) : List String := splitEqAux s.data []

/-- The tokenizer cursor: a buffer of characters and the current index.
Modelled from the spec: the `StringView` class of `nokari/utils/view.py`
is not part of the repository snapshot (only its importers are), so it is
reconstructed from the specification's tokenizer contract (spec section 6)
and the parse-loop description (spec section 4.4). -/
structure View where
  buffer : List Char
  index : Nat
deriving Repr, DecidableEq

/-- Modelled from the spec: `skip_char(" ")` of the missing
`StringView`.  Spec section 4.4.a says a run of consecutive separator
characters is consumed incrementally by repeated skips across loop
iterations, not collapsed in one step, so one call advances past at most
one occurrence of the character. -/
def skipChar (v : View) (c : Char) : View :=
  match v.buffer.drop v.index with
  | d :: _ => if d = c then { v with index := v.index + 1 } else v
  | [] => v

/-- Characters ending an unquoted word: whitespace ends the token, a
quote raises the recoverable quote signal. -/
def isStopChar (c : Char) : Bool := c.isWhitespace || c = '"'

/-- Offset of the first word-stopping character in a character list (the
list's length when there is none). -/
def firstStop : List Char → Nat
  | [] => 0
  | c :: cs => if isStopChar c then 0 else firstStop cs + 1

/-- Offset of the first closing quote in a character list, if any. -/
def findClose : List Char → Option Nat
  | [] => none
  | c :: cs => if c = '"' then some 0 else (findClose cs).map (· + 1)

/-- Result of one `get_quoted_word()` call: a token (or `none` at
end-of-input) together with the advanced cursor, or the quote-error signal
together with the cursor position the recovery path relies on. -/
inductive QRes where
  | ok (w : Option String) (v : View)
  | err (v : View)
deriving Repr

/-- Modelled from the spec: `get_quoted_word()` of the missing
`StringView` (spec section 6): returns the next whitespace-delimited
token, a matched pair of quote characters forming one token boundary with
the quotes excluded from the returned text; returns `none` at
end-of-input; signals a quote error either when a quote opens a token and
is never closed (cursor left at end-of-input) or when a quote appears
inside an unquoted word (cursor left at the quote, so that the recovery
path of spec section 4.4.c can re-read the already-scanned prefix).
No escaping is modelled (spec section 1 excludes shell-style escaping). -/
def getQuotedWord (v : View) : QRes :=
  match v.buffer.drop v.index with
  | [] => .ok none v
  | c :: cs =>
    if c = '"' then
      match findClose cs with
      | some off =>
        .ok (some ⟨cs.take off⟩) { v with index := v.index + off + 2 }
      | none => .err { v with index := v.buffer.length }
    else
      let off := firstStop cs
      if (cs.drop off).head? = some '"' then
        .err { v with index := v.index + 1 + off }
      else
        .ok (some ⟨c :: cs.take off⟩) { v with index := v.index + 1 + off }

/-- Python slice `buffer[i:j]` of the view buffer. -/
def strSlice (b : List Char) (i j : Nat) : String := ⟨(b.drop i).take (j - i)⟩

/-- One entry of the configuration mapping (`ArgumentOptions` TypedDict):
all three keys are optional in the input; `__init__` fills `name` and
`aliases`, while `argmax` may stay absent (read back with
`.get("argmax", -1)`). -/
structure ArgumentOptions where
  name : Option String := none
  aliases : List String := []
  argmax : Option Int := none
deriving DecidableEq, Repr

/-- String-keyed association-list lookup (Python dict read on `params`). -/
def dGetS : List (String × ArgumentOptions) → String → Option ArgumentOptions
  | [], _ => none
  | (k, v) :: rest, key => if k = key then some v else dGetS rest key

/-- Set-like insertion used for `valid_names` / `short_flags` (Python
`set.add`, kept in first-insertion order; the parser only tests
membership and iterates, and every iteration it performs is
order-independent, see `process_word`). -/
def setAdd (l : List String) (s : String) : List String :=
  if l.contains s then l else l ++ [s]

/-- The `ArgumentParser` instance after `__init__`: normalized `params`
plus the derived lookup structures and policy bits.  `defaultKey` is
Python `_default_key`, `defaultName` is `_default_name`. -/
structure ArgumentParser where
  params : List (String × ArgumentOptions)
  force : Bool
  replace : Bool
  valid_names : List String
  short_flags : List String
  defaultKey : Option String
  defaultName : Option String
deriving DecidableEq, Repr

/-- `__init__` normalization of one entry: a falsy `name` (absent or the
empty string) is replaced by the lookup key; a falsy `aliases` is
replaced by the empty list (a no-op for our representation). -/
def normEntry (k : String) (v : ArgumentOptions) : ArgumentOptions :=
  { v with
    name := some (match v.name with
      | none => k
      | some "" => k
      | some s => s) }

/-- `ArgumentParser.__init__`: normalizes every entry, collects
`valid_names` (all canonical names and aliases) and `short_flags`
(lookup keys of arity-0 options whose key differs from their canonical
name), and resolves `_default_name` from `append_remainder_to`.  The only
failure is a `KeyError` when a truthy `append_remainder_to` is not a key
of the mapping; no duplicate detection of any kind is performed. -/
def mkParser (cfg : List (String × ArgumentOptions)) (force : Bool)
    (replace : Bool) (append_remainder_to : Option String) :
    Except Err ArgumentParser :=
  let params := cfg.map (fun kv => (kv.1, normEntry kv.1 kv.2))
  let valid_names := params.foldl
    (fun acc kv =>
      let acc1 := match kv.2.name with
        | some n => setAdd acc n
        | none => acc
      kv.2.aliases.foldl setAdd acc1) []
  let short_flags := params.foldl
    (fun acc kv =>
      if kv.2.argmax = some 0 ∧ kv.2.name ≠ some kv.1 then setAdd acc kv.1
      else acc) []
  match append_remainder_to with
  | none =>
    .ok ⟨params, force, replace, valid_names, short_flags, none, none⟩
  | some d =>
    if d = "" then
      .ok ⟨params, force, replace, valid_names, short_flags, some d, none⟩
    else
      match dGetS params d with
      | none => .error .keyError
      | some v =>
        .ok ⟨params, force, replace, valid_names, short_flags, some d, v.name⟩

/-- The `_Parser` session state (minus the view, which the loop threads
separately): the currently targeted option dictionary and key, and the
accumulator dictionary `data`. -/
structure PState where
  current_key : DKey
  current_dict : ArgumentOptions
  data : Data
deriving DecidableEq, Repr

/-- `_Parser.__init__`: with a truthy default key the session starts
targeting that option (a `KeyError` escapes if the key is not in
`params`); otherwise it targets the unnamed remainder key `None`. -/
def initState (P : ArgumentParser) : Except Err PState :=
  match P.defaultKey with
  | some d =>
    if d = "" then
      .ok ⟨none, ⟨none, [], none⟩, [(none, .vList [])]⟩
    else
      match dGetS P.params d with
      | none => .error .keyError
      | some v => .ok ⟨P.defaultName, v, [(P.defaultName, .vList [])]⟩
  | none => .ok ⟨none, ⟨none, [], none⟩, [(none, .vList [])]⟩

/-- Lines 170-185 of `process_word`, shared by every classification
branch: `temp_dict` (possibly `None`, replaced by `{"name": None}`),
then the unmatched/no-replace test.  When `temp_dict["name"] is None and
not self.force` holds, the walrus `lst := data[self._default_name]` in
the short-circuited second disjunct was never executed, so the body's
`isinstance(lst, list)` raises `UnboundLocalError` (modelled as
`Err.nameError`).  Otherwise, on the no-replace path the raw token is
appended to the default accumulator when that accumulator is a truthy
list; on the remaining path the session retargets to the matched option
(`pwRetarget`: lines 181-185), resetting its accumulator unless it is
the default key. -/
def pwRetarget (P : ArgumentParser) (st : PState) (td : ArgumentOptions) :
    PState × Bool :=
  let data' := if td.name ≠ P.defaultName then dSet st.data td.name (.vList []) else st.data
  (⟨td.name, td, data'⟩, true)

def pwTail (P : ArgumentParser) (st : PState) (tdOpt : Option ArgumentOptions)
    (argument : String) : Except Err (PState × Bool) :=
  let td := tdOpt.getD ⟨none, [], none⟩
  if td.name = none ∧ P.force = false then .error .nameError
  else if (dGet st.data td.name).isSome ∧ P.replace = false then
    match dGet st.data P.defaultName with
    | none => .error .keyError
    | some lv =>
      if truthy lv then
        let data' := match lv with
          | .vList l => dSet st.data P.defaultName (.vList (l ++ [argument]))
          | _ => st.data
        .ok ({ st with data := data' }, false)
      else
        .ok (pwRetarget P st td)
  else
    .ok (pwRetarget P st td)

/-- The bundle-eligible short flags occurring in a token:
`self.short_flags & set(key)` — only single-character members of
`short_flags` whose character occurs in `key` survive the intersection
with the character set of `key`.  Kept in `short_flags` insertion order
(the Python set iteration order is unspecified, but each member
contributes an idempotent, commuting update, so any order yields the
same result). -/
def bundleFlags (short_flags : List String) (key : String) :
    List (String × Char) :=
  short_flags.filterMap (fun f =>
    match f.data with
    | [c] => if key.data.contains c then some (f, c) else none
    | _ => none)

/-- The bundling loop body: for each peeled flag, mark its option
boolean-true (`data[params[f]["name"]] = True`; a missing `params` entry
would be a Python `KeyError`) and remove the character from the token. -/
def applyBundle (P : ArgumentParser) :
    PState → String → List (String × Char) → Except Err (PState × String)
  | st, arg, [] => .ok (st, arg)
  | st, arg, (f, c) :: rest =>
    match dGetS P.params f with
    | none => .error .keyError
    | some v =>
      applyBundle P { st with data := dSet st.data v.name (.vBool true) }
        (pyRemoveChar arg c) rest

/-- The long-form lookup loop (`for _, v in self.params.items(): ...`):
the first option whose canonical name or alias list matches the key;
when the loop finds nothing, `temp_dict` keeps its initial
`ArgumentOptions(name=None)` value. -/
def findOpt (params : List (String × ArgumentOptions)) (key : String) :
    ArgumentOptions :=
  match params.find? (fun kv => kv.2.name == some key || kv.2.aliases.contains key) with
  | some kv => kv.2
  | none => ⟨none, [], none⟩

/-- `ArgumentParser.process_word`.  Python string indexing out of range
(`argument[1]` on a one-character token, `argument[2]` on a
two-character token) raises `IndexError`.  Returns the updated session
state and the boolean the Python method returns. -/
def process_word (P : ArgumentParser) (st : PState) (argument : String)
    (allow_sf : Bool) : Except Err (PState × Bool) :=
  let key := pyLower (pyLstripDash argument)
  match argument.data with
  | [] => .error .indexError
  | c0 :: rest0 =>
    if c0 = '-' then
      match rest0 with
      | [] => .error .indexError
      | c1 :: rest1 =>
        if c1 ≠ '-' then
          match dGetS P.params key with
          | some td =>
            if td.name ≠ some key then
              if td.argmax.getD (-1) = 0 then
                .ok ({ st with data := dSet st.data td.name (.vBool true) }, false)
              else pwTail P st (some td) argument
            else pwTail P st (some ⟨none, [], none⟩) argument
          | none =>
            if allow_sf then
              match bundleFlags P.short_flags key with
              | [] => pwTail P st none argument
              | joined =>
                match applyBundle P st argument joined with
                | .error e => .error e
                | .ok (st2, arg2) =>
                  if arg2 = "-" then .ok (st2, false)
                  else pwTail P st2 (dGetS P.params ⟨arg2.data.drop 1⟩) arg2
            else pwTail P st none argument
        else
          match rest1 with
          | [] => .error .indexError
          | c2 :: _ =>
            if c2 ≠ '-' then
              if P.valid_names.contains key then
                pwTail P st (some (findOpt P.params key)) argument
              else pwTail P st (some ⟨none, [], none⟩) argument
            else pwTail P st (some ⟨none, [], none⟩) argument
    else
      pwTail P st (some ⟨none, [], none⟩) argument

/-- `ArgumentParser.append`: a plain token joins the current target's
accumulator when that accumulator is a list; reaching a finite `argmax`
reverts the target to the default key.  Reading `data[current_key]` on a
missing key would be a Python `KeyError`. -/
def append (P : ArgumentParser) (st : PState) (argument : String) :
    Except Err PState :=
  let maxL := st.current_dict.argmax.getD (-1)
  match dGet st.data st.current_key with
  | none => .error .keyError
  | some (.vList l) =>
    let l' := l ++ [argument]
    let st' := { st with data := dSet st.data st.current_key (.vList l') }
    if maxL ≠ -1 ∧ (l'.length : Int) ≥ maxL then
      .ok { st' with current_key := P.defaultName }
    else .ok st'
  | some _ => .ok st

/-- One loop-body token dispatch of `ArgumentParser.parse` (lines
222-243): strip the token; a flag-looking token (single leading dash,
length not 1, and the dash/quote special case not triggered) goes
through the `key=value` shorthand or full classification; everything
else is appended to the current target. -/
def handleToken (P : ArgumentParser) (st : PState) (pass_ : Bool)
    (argument : String) : Except Err PState :=
  let temp := pyStrip argument
  if pass_ = false ∧ temp.data.head? = some '-' ∧ temp.length ≠ 1 then
    if temp.data.contains '=' ∧ (splitOnEq temp).all (fun p => !p.isEmpty) then
      match splitOnEq temp with
      | [] => .error .keyError
      | keyPart :: restParts =>
        match process_word P st keyPart false with
        | .error e => .error e
        | .ok (st1, true) => append P st1 (joinEqS restParts)
        | .ok (st1, false) =>
          match process_word P st1 temp true with
          | .error e => .error e
          | .ok (st2, _) => .ok st2
    else
      match process_word P st temp true with
      | .error e => .error e
      | .ok (st2, _) => .ok st2
  else append P st argument

/-- The `while not view.eof` loop of `ArgumentParser.parse`, with
explicit fuel (each iteration strictly advances the cursor, so
`buffer.length + 1` units suffice): skip one separator, check the
dash/quote adjacency special case, extract the next token (recovering
once from the tokenizer's quote signal, a second signal escaping
uncaught), and dispatch it. -/
def parseLoop (P : ArgumentParser) : Nat → PState → View → Except Err PState
  | 0, _, _ => .error .fuel
  | fuel + 1, st, v =>
    if v.index ≥ v.buffer.length then .ok st
    else
      let v1 := skipChar v ' '
      let pass_ := decide (((v1.buffer.drop v1.index).take 2) = ['"', '-'])
      let saved := v1.index
      let tokRes : Except Err (String × View) :=
        match getQuotedWord v1 with
        | .ok w v2 => .ok (w.getD "", v2)
        | .err v2 =>
          match getQuotedWord v2 with
          | .ok w2 v3 => .ok (strSlice v2.buffer saved v2.index ++ w2.getD "", v3)
          | .err _ => .error .quoteError
      match tokRes with
      | .error e => .error e
      | .ok (argument, v') =>
        match handleToken P st pass_ argument with
        | .error e => .error e
        | .ok st' => parseLoop P fuel st' v'

/-- The finalization loop over `self.params.values()` in
`_Parser.finish`: pop each option's accumulator (defaulting to `False`
for arity-0 flags and `None` otherwise), map hyphens to underscores in
the field name, join list accumulators (an untouched-but-opened arity-0
accumulator becoming `True`), and store the field. -/
def finishLoop : List (String × ArgumentOptions) → Data → Data
  | [], data => data
  | (_, v) :: rest, data =>
    let k := v.name
    let isFlag := v.argmax.getD (-1) == 0
    let popped := dPop data k
    let val := match popped with
      | some (pv, _) => pv
      | none => if isFlag then PVal.vBool false else PVal.vNone
    let data1 := match popped with
      | some (_, d') => d'
      | none => data
    let k' := k.map pyReplDash
    let newVal := match val with
      | PVal.vList l => if isFlag && l.isEmpty then PVal.vBool true
                        else PVal.vStr (joinSpace l)
      | other => other
    finishLoop rest (dSet data1 k' newVal)

/-- `_Parser.finish`: when no default key is configured (`is None` test,
not truthiness), the unnamed accumulator is popped and joined into a
`remainder` field; then the per-option loop runs and the `None`-keyed
entries are dropped from the resulting record. -/
def finish (P : ArgumentParser) (st : PState) : Except Err Record :=
  match (match P.defaultKey with
    | none =>
      match dPop st.data none with
      | none => Except.error Err.keyError
      | some (remv, d') =>
        Except.ok (match remv with
          | PVal.vList l => dSet d' (some "remainder") (.vStr (joinSpace l))
          | _ => d')
    | some _ => Except.ok st.data) with
  | .error e => .error e
  | .ok dataA =>
    .ok ((finishLoop P.params dataA).filterMap
      (fun kv => kv.1.map (fun s => (s, kv.2))))

/-- `ArgumentParser.parse`: build the session, run the loop, finalize. -/
def parse (P : ArgumentParser) (raw : String) : Except Err Record :=
  match initState P with
  | .error e => .error e
  | .ok st0 =>
    match parseLoop P (raw.data.length + 1) st0 ⟨raw.data, 0⟩ with
    | .error e => .error e
    | .ok stF => finish P stF

/-- Construct a parser from a configuration and immediately parse: the
composition exposed to commands. -/
def parseWith (cfg : List (String × ArgumentOptions)) (force : Bool)
    (replace : Bool) (append_remainder_to : Option String) (raw : String) :
    Except Err Record :=
  match mkParser cfg force replace append_remainder_to with
  | .error e => .error e
  | .ok P => parse P raw

/-! ### Concrete schemas used by the testable properties of the spec -/

/-- Schema with the boolean option `h` → `hidden` (arity 0). -/
def cfgH : List (String × ArgumentOptions) := [("h", ⟨some "hidden", [], some 0⟩)]

/-- Schema with bundle-eligible boolean options `h` → `hidden`,
`c` → `card`, `t` → `time` (all arity 0). -/
def cfgHCT : List (String × ArgumentOptions) :=
  [("h", ⟨some "hidden", [], some 0⟩), ("c", ⟨some "card", [], some 0⟩),
   ("t", ⟨some "time", [], some 0⟩)]

/-- Schema with the option `cl` → `color` (arity 1). -/
def cfgCL : List (String × ArgumentOptions) := [("cl", ⟨some "color", [], some 1⟩)]

/-- The parser instance `mkParser cfgH false true none` produces. -/
def hParser : ArgumentParser :=
  ⟨[("h", ⟨some "hidden", [], some 0⟩)], false, true, ["hidden"], ["h"], none, none⟩

/-- The parser instance `mkParser cfgCL false true none` produces. -/
def clParser : ArgumentParser :=
  ⟨[("cl", ⟨some "color", [], some 1⟩)], false, true, ["color"], ["cl"], none, none⟩

/-- The fresh session state of a parser with no default key. -/
def st0 : PState := ⟨none, ⟨none, [], none⟩, [(none, .vList [])]⟩

/-! ### Dictionary lemmas -/

theorem dGet_eq_none_iff (l : Data) (k : DKey) :
    dGet l k = none ↔ ∀ p ∈ l, p.1 ≠ k := by
  induction l with
  | nil => simp [dGet]
  | cons p rest ih =>
    by_cases h : p.1 = k <;> simp [dGet, h, ih]

theorem dPop_eq_none_of_dGet (l : Data) (k : DKey) (h : dGet l k = none) :
    dPop l k = none := by
  induction l with
  | nil => simp [dPop]
  | cons p rest ih =>
    by_cases h1 : p.1 = k
    · simp [dGet, h1] at h
    · simp [dGet, h1] at h
      simp [dPop, h1, ih h]

theorem dSet_eq_append_of_dGet (l : Data) (k : DKey) (v : PVal)
    (h : dGet l k = none) : dSet l k v = l ++ [(k, v)] := by
  induction l with
  | nil => simp [dSet]
  | cons p rest ih =>
    by_cases h1 : p.1 = k
    · simp [dGet, h1] at h
    · simp [dGet, h1] at h
      simp [dSet, h1, ih h]

theorem dGet_dSet_self (l : Data) (k : DKey) (v : PVal) :
    dGet (dSet l k v) k = some v := by
  induction l with
  | nil => simp [dSet, dGet]
  | cons p rest ih =>
    by_cases h : p.1 = k <;> simp [dSet, dGet, h, ih]

theorem dGet_dSet_ne (l : Data) (k k' : DKey) (v : PVal) (h : k' ≠ k) :
    dGet (dSet l k v) k' = dGet l k' := by
  induction l with
  | nil => simp [dSet, dGet, Ne.symm h]
  | cons p rest ih =>
    by_cases hp : p.1 = k
    · subst hp
      simp [dSet, dGet, Ne.symm h]
    · simp [dSet, dGet, hp, ih]

theorem dPop_of_dGet_some (l : Data) (k : DKey) (v : PVal)
    (h : dGet l k = some v) :
    ∃ d', dPop l k = some (v, d') ∧ ∀ k2, k2 ≠ k → dGet d' k2 = dGet l k2 := by
  induction l with
  | nil => simp [dGet] at h
  | cons p rest ih =>
    by_cases hp : p.1 = k
    · simp [dGet, hp] at h
      refine ⟨rest, ?_, ?_⟩
      · simp [dPop, hp, h]
      · intro k2 hk2
        subst hp
        simp [dGet, Ne.symm hk2]
    · simp [dGet, hp] at h
      obtain ⟨d', hd1, hd2⟩ := ih h
      refine ⟨p :: d', ?_, ?_⟩
      · simp [dPop, hp, hd1]
      · intro k2 hk2
        by_cases hk : p.1 = k2 <;> simp [dGet, hk, hd2 k2 hk2]

theorem dGet_append_of_none (l1 l2 : Data) (k : DKey)
    (h : dGet l1 k = none) : dGet (l1 ++ l2) k = dGet l2 k := by
  induction l1 with
  | nil => simp
  | cons p rest ih =>
    by_cases h1 : p.1 = k
    · simp [dGet, h1] at h
    · simp [dGet, h1] at h ⊢
      exact ih h

theorem dGet_append_of_some (l1 l2 : Data) (k : DKey) (v : PVal)
    (h : dGet l1 k = some v) : dGet (l1 ++ l2) k = some v := by
  induction l1 with
  | nil => simp [dGet] at h
  | cons p rest ih =>
    by_cases hp : p.1 = k <;> simp_all [dGet]

theorem rGet_filterMap (data : Data) (s : String) :
    rGet (data.filterMap (fun kv => kv.1.map (fun n => (n, kv.2)))) s =
      dGet data (some s) := by
  induction data with
  | nil => simp [rGet, dGet]
  | cons p rest ih =>
    obtain ⟨k, v⟩ := p
    match k with
    | none => simpa [dGet] using ih
    | some t =>
      by_cases ht : t = s <;> simp [rGet, dGet, ht, ih]

/-- A character-wise hyphen-to-underscore replacement that produces an
underscore-free string can only have copied it verbatim. -/
theorem map_replDashChar_eq (l t : List Char) (ht : '_' ∉ t)
    (h : l.map replDashChar = t) : l = t := by
  induction l generalizing t with
  | nil => simpa using h.symm
  | cons c cs ih =>
    match t with
    | [] => simp at h
    | d :: ds =>
      simp only [List.map_cons, List.cons.injEq] at h
      obtain ⟨h1, h2⟩ := h
      simp only [List.mem_cons, not_or] at ht
      obtain ⟨ht1, ht2⟩ := ht
      have hc : c = d := by
        by_cases hcd : c = '-'
        · exfalso
          apply ht1
          rw [← h1, hcd]
          rfl
        · rw [← h1]
          simp [replDashChar, hcd]
      rw [hc, ih ds ht2 h2]

/-- Only the field name `remainder` itself maps to `remainder` under the
hyphen-to-underscore replacement. -/
theorem pyReplDash_eq_remainder (n : String)
    (h : pyReplDash n = "remainder") : n = "remainder" := by
  have hd : n.data.map replDashChar = "remainder".data := congrArg String.data h
  have hdata : n.data = "remainder".data :=
    map_replDashChar_eq _ _ (by decide) hd
  cases n with
  | mk d =>
    rw [show ("remainder" : String) = ⟨"remainder".data⟩ from rfl]
    exact congrArg String.mk hdata

theorem nameRepl_ne_remainder (o : Option String) (h : o ≠ some "remainder") :
    o.map pyReplDash ≠ some "remainder" := by
  cases o with
  | none => simp
  | some n =>
    simp only [Option.map_some', ne_eq, Option.some.injEq]
    intro hc
    exact h (by rw [pyReplDash_eq_remainder n hc])

/-! ### Lemmas about the finalization loop -/

theorem dPop_spec (l : Data) (k : DKey) (v : PVal) (d' : Data)
    (h : dPop l k = some (v, d')) :
    dGet l k = some v ∧ ∀ k2, k2 ≠ k → dGet d' k2 = dGet l k2 := by
  induction l generalizing d' with
  | nil => simp [dPop] at h
  | cons q qs ihq =>
    by_cases hq : q.1 = k
    · simp only [dPop, if_pos hq, Option.some.injEq, Prod.mk.injEq] at h
      obtain ⟨h1, h2⟩ := h
      subst h2
      refine ⟨by simp [dGet, hq, h1], ?_⟩
      intro k2 hk2
      have hne : q.1 ≠ k2 := by rw [hq]; exact fun hh => hk2 hh.symm
      simp [dGet, hne]
    · simp only [dPop, if_neg hq] at h
      cases hqs : dPop qs k with
      | none => rw [hqs] at h; simp at h
      | some pd =>
        obtain ⟨pv2, d2⟩ := pd
        rw [hqs] at h
        simp only [Option.some.injEq, Prod.mk.injEq] at h
        obtain ⟨h1, h2⟩ := h
        subst h1
        subst h2
        obtain ⟨g1, g2⟩ := ihq d2 hqs
        refine ⟨by simp [dGet, hq, g1], ?_⟩
        intro k2 hk2
        by_cases hqk : q.1 = k2 <;> simp [dGet, hqk, g2 k2 hk2]

/-- The per-option finalization loop can move a `remainder` field but
never change its (string) value: an option literally named `remainder`
pops the field and stores the identical value back, and every other
option writes to a different key since only `remainder` itself maps to
`remainder` under hyphen replacement. -/
theorem finishLoop_remainder (params : List (String × ArgumentOptions))
    (data : Data) (R : String)
    (hR : dGet data (some "remainder") = some (.vStr R)) :
    dGet (finishLoop params data) (some "remainder") = some (.vStr R) := by
  induction params generalizing data with
  | nil => simpa [finishLoop] using hR
  | cons kv rest ih =>
    by_cases hname : kv.2.name = some "remainder"
    · obtain ⟨d', hd1, hd2⟩ := dPop_of_dGet_some data (some "remainder") _ hR
      rw [← hname] at hd1
      simp only [finishLoop, hd1]
      apply ih
      rw [hname]
      rw [show Option.map pyReplDash (some "remainder") = some "remainder" from rfl]
      exact dGet_dSet_self _ _ _
    · have hkey : kv.2.name.map pyReplDash ≠ some "remainder" :=
        nameRepl_ne_remainder _ hname
      cases hpop : dPop data kv.2.name with
      | none =>
        simp only [finishLoop, hpop]
        apply ih
        rw [dGet_dSet_ne _ _ _ _ (fun hc => hkey hc.symm)]
        exact hR
      | some pd =>
        obtain ⟨pv, d'⟩ := pd
        obtain ⟨hv, hrest⟩ := dPop_spec data kv.2.name pv d' hpop
        simp only [finishLoop, hpop]
        apply ih
        rw [dGet_dSet_ne _ _ _ _ (fun hc => hkey hc.symm)]
        rw [hrest (some "remainder") (fun hc => hname hc.symm)]
        exact hR

/-- When no option name collides with the keys already present in the
accumulator dictionary, the finalization loop appends one defaulted field
per option (flags to `False`, the rest to `None`), in configuration
order. -/
theorem finishLoop_disjoint (params : List (String × ArgumentOptions))
    (data : Data)
    (hnodup : (params.map (fun kv => kv.2.name)).Nodup)
    (hrepl : ∀ kv ∈ params, kv.2.name.map pyReplDash = kv.2.name)
    (hdisj : ∀ kv ∈ params, dGet data kv.2.name = none) :
    finishLoop params data = data ++ params.map (fun kv => (kv.2.name,
      if kv.2.argmax.getD (-1) == 0 then PVal.vBool false else PVal.vNone)) := by
  induction params generalizing data with
  | nil => simp [finishLoop]
  | cons kv rest ih =>
    have hkv : dGet data kv.2.name = none := hdisj kv (List.mem_cons_self _ _)
    have hpop := dPop_eq_none_of_dGet data kv.2.name hkv
    have hrepl0 : kv.2.name.map pyReplDash = kv.2.name :=
      hrepl kv (List.mem_cons_self _ _)
    have hnd := List.nodup_cons.mp hnodup
    have hdisj' : ∀ dflt, ∀ p ∈ rest,
        dGet (data ++ [(kv.2.name, dflt)]) p.2.name = none := by
      intro dflt p hp
      rw [dGet_append_of_none _ _ _ (hdisj p (List.mem_cons_of_mem _ hp))]
      have hne : p.2.name ≠ kv.2.name := by
        intro hc
        have hmem : p.2.name ∈ List.map (fun kv => kv.2.name) rest := by
          exact List.mem_map_of_mem _ hp
        rw [hc] at hmem
        exact hnd.1 hmem
      simp [dGet, Ne.symm hne]
    have hreplR : ∀ p ∈ rest, p.2.name.map pyReplDash = p.2.name :=
      fun p hp => hrepl p (List.mem_cons_of_mem _ hp)
    cases hflag : kv.2.argmax.getD (-1) == 0 with
    | true =>
      have hflag' : kv.2.argmax.getD (-1) = 0 := by simpa using hflag
      simp only [finishLoop, hpop, hflag, if_true]
      rw [hrepl0, dSet_eq_append_of_dGet _ _ _ hkv]
      rw [ih _ hnd.2 hreplR (hdisj' _)]
      simp [hflag']
    | false =>
      have hflag' : ¬ kv.2.argmax.getD (-1) = 0 := by simpa using hflag
      simp only [finishLoop, hpop, hflag, if_false]
      rw [hrepl0, dSet_eq_append_of_dGet _ _ _ hkv]
      rw [ih _ hnd.2 hreplR (hdisj' _)]
      simp [hflag']

theorem dGetS_of_keys_mem (cfg : List (String × ArgumentOptions)) (d : String)
    (h : d ∈ cfg.map Prod.fst) :
    (dGetS (cfg.map (fun kv => (kv.1, normEntry kv.1 kv.2))) d).isSome := by
  induction cfg with
  | nil => simp at h
  | cons kv rest ih =>
    by_cases hk : kv.1 = d
    · simp [dGetS, hk]
    · simp only [List.map_cons, List.mem_cons] at h
      rcases h with h | h

      · exact absurd h.symm hk
      · simp only [List.map_cons, dGetS, if_neg hk]
        exact ih h

/-! ### Claims -/

/-- C1: the claim states that `parse` is total — for every constructed
Schema and every input string it returns a complete result record and
never raises.  The code contradicts this (and its own docstring, which
promises that invalid flags merely become remainder): on the input
`"--"`, `process_word` evaluates `argument[2]` inside
`argument.startswith("--") and argument[2] != "-"` on the two-character
token, which raises `IndexError`.  This theorem evaluates the embedded
code at that failing input. -/
theorem c1_parse_raises_indexerror :
    parseWith cfgH false true none "--" = .error .indexError := rfl

/-- C2: the claim states that with `force=false` an unknown flag-looking
token such as `-x` is pushed verbatim into the remainder.  The code
contradicts this (and its own docstring "If set to False, invalid
flags/options will be remainder"): for an unmatched token the condition
`temp_dict["name"] is None and not self.force` short-circuits the `or`,
so the walrus assignment `lst := data[self._default_name]` never runs and
the branch body's `isinstance(lst, list)` raises `UnboundLocalError`.
This theorem evaluates the embedded code at the failing input. -/
theorem c2_unknown_flag_raises_unboundlocalerror :
    parseWith cfgH false true none "-x foo" = .error .nameError := rfl

/-- Configuration in which two entries claim the same canonical name. -/
def cfgDup : List (String × ArgumentOptions) :=
  [("a", ⟨some "x", [], some 0⟩), ("b", ⟨some "x", [], some 0⟩)]

/-- C3 counterexample: the claim states that a configuration in which two
entries claim the same canonical name must make construction fail fast.
In the code `__init__` performs no duplicate detection: on `cfgDup`
(both entries named `x`) construction succeeds and returns a usable
parser whose `valid_names` silently collapsed the duplicate. -/
theorem c3_counterexample_duplicate_succeeds :
    mkParser cfgDup false true none =
      .ok ⟨[("a", ⟨some "x", [], some 0⟩), ("b", ⟨some "x", [], some 0⟩)],
        false, true, ["x"], ["a", "b"], none, none⟩ := rfl

/-- C3 (amended): construction performs no duplicate-name/alias
validation at all; it succeeds for every configuration — duplicate or
duplicate-free — whose default key, when present and non-empty, is a key
of the mapping (the lookup `params[self._default_key]` being the only
failing operation in `__init__`). -/
theorem c3_construction_never_validates (cfg : List (String × ArgumentOptions))
    (force replace : Bool) (dk : Option String)
    (hdk : ∀ d, dk = some d → d ≠ "" → d ∈ cfg.map Prod.fst) :
    ∃ P, mkParser cfg force replace dk = .ok P := by
  cases dk with
  | none => exact ⟨_, rfl⟩
  | some d =>
    by_cases hd : d = ""
    · subst hd
      exact ⟨_, rfl⟩
    · obtain ⟨v, hv⟩ := Option.isSome_iff_exists.mp
        (dGetS_of_keys_mem cfg d (hdk d rfl hd))
      simp only [mkParser, hd, hv]
      exact ⟨_, rfl⟩

/-- C3 witness: the amended construction-totality theorem applied to a
concrete duplicate-free configuration. -/
theorem c3_construction_never_validates_witness :
    ∃ P, mkParser cfgH false true none = .ok P :=
  c3_construction_never_validates cfgH false true none (fun _ hd _ => nomatch hd)

/-- C4 counterexample: the claim states that an arity-0 option never
captures value tokens through any of its spellings, including the
double-dash long form, and that its field is always boolean.  On the
Schema `h` → `hidden` (arity 0), `parse("--hidden value")` selects
`hidden` as the capture target via the long form, appends `value` to its
accumulator, and finalization joins it: the `hidden` field is the string
`"value"`, not a boolean. -/
theorem c4_counterexample_long_form_captures :
    parseWith cfgH false true none "--hidden value" =
      .ok [("remainder", .vStr ""), ("hidden", .vStr "value")] := rfl

/-- C5 counterexample: the claim states that when a default key is
configured and receives no tokens, parsing the empty string leaves the
default-key field absent.  On the Schema with single option `c` (the
default key), the code instead joins the empty accumulator into the
empty string: the field is present and equal to `""`. -/
theorem c5_counterexample_default_field_empty_string :
    parseWith [("c", ⟨none, [], none⟩)] false true (some "c") "" =
      .ok [("c", .vStr "")] := rfl

/-- C6: `key=value` shorthand equivalence — on the Schema `cl` → `color`
(arity 1, no default key), `parse("--color=red text")` and
`parse("-cl red text")` yield identical records, with `color = "red"`
and `remainder = "text"`. -/
theorem c6_eq_shorthand_equivalence :
    parseWith cfgCL false true none "--color=red text" =
        parseWith cfgCL false true none "-cl red text" ∧
      parseWith cfgCL false true none "--color=red text" =
        .ok [("remainder", .vStr "text"), ("color", .vStr "red")] := ⟨rfl, rfl⟩

/-- C7: arity auto-close — appending a plain token that fills the
accumulator of an option with positive finite arity (here
`N = l.length + 1`, the accumulator holding `l` before the append)
reverts the session's current target to the default/remainder key; and on
the Schema `cl` → `color` (arity 1, no default key),
`parse("-cl red rest of text")` yields `color = "red"` and
`remainder = "rest of text"`. -/
theorem c7_arity_autoclose :
    (∀ (P : ArgumentParser) (st : PState) (arg : String) (l : List String),
      st.current_dict.argmax = some ((l.length : Int) + 1) →
      dGet st.data st.current_key = some (.vList l) →
      append P st arg = .ok ⟨P.defaultName, st.current_dict,
        dSet st.data st.current_key (.vList (l ++ [arg]))⟩) ∧
    parseWith cfgCL false true none "-cl red rest of text" =
      .ok [("remainder", .vStr "rest of text"), ("color", .vStr "red")] := by
  constructor
  · intro P st arg l hmax hacc
    have h1 : ((l.length : Int) + 1) ≠ -1 := by omega
    have h2 : (((l ++ [arg]).length : Int)) ≥ (l.length : Int) + 1 := by simp
    simp [append, hmax, hacc, h1, h2]
  · rfl

/-- C7 witness: the auto-close theorem applied to the `cl` → `color`
parser mid-session, right before `red` fills the arity-1 accumulator. -/
theorem c7_arity_autoclose_witness :
    append clParser ⟨some "color", ⟨some "color", [], some 1⟩,
        [(none, .vList []), (some "color", .vList [])]⟩ "red" =
      .ok ⟨none, ⟨some "color", [], some 1⟩,
        [(none, .vList []), (some "color", .vList ["red"])]⟩ := by
  have h := c7_arity_autoclose.1 clParser
    ⟨some "color", ⟨some "color", [], some 1⟩,
      [(none, .vList []), (some "color", .vList [])]⟩ "red" [] rfl rfl
  exact h

/-- C9: quote-adjacent-to-dash exception — for every Schema with no
default key and `force = false`, `parse("\"-nope\" rest")` treats the
quoted token as literal text: the result record's `remainder` field is
`"-nope rest"`, the quoted text preserved verbatim rather than
interpreted as a flag. -/
theorem c9_quote_dash_literal (P : ArgumentParser)
    (hdk : P.defaultKey = none) (hforce : P.force = false) :
    ∃ r, parse P "\"-nope\" rest" = .ok r ∧
      rGet r "remainder" = some (.vStr "-nope rest") := by
  obtain ⟨params, force, replace, vn, sf, dk, dn⟩ := P
  simp only at hdk hforce
  subst hdk
  subst hforce
  have hparse :
      parse ⟨params, false, replace, vn, sf, none, dn⟩ "\"-nope\" rest" =
        .ok ((finishLoop params [(some "remainder", .vStr "-nope rest")]).filterMap
          (fun kv => kv.1.map (fun s => (s, kv.2)))) := rfl
  refine ⟨_, hparse, ?_⟩
  rw [rGet_filterMap]
  exact finishLoop_remainder _ _ _ rfl

/-- C9 witness: the quote-adjacent-to-dash theorem applied to the
concrete `h` → `hidden` parser. -/
theorem c9_quote_dash_literal_witness :
    ∃ r, parse hParser "\"-nope\" rest" = .ok r ∧
      rGet r "remainder" = some (.vStr "-nope rest") :=
  c9_quote_dash_literal hParser rfl rfl

/-- Classification of a single-dash token whose text after the dash is a
lookup key bound to an option with a differing canonical name and arity
0: the option is marked boolean-true and `process_word` returns `False`
immediately — no capture target changes, no value token is consumed. -/
theorem process_word_alias_flag (P : ArgumentParser) (st : PState) (sf : Bool)
    (c : Char) (l : List Char) (td : ArgumentOptions) (n : String)
    (hc : c ≠ '-')
    (hget : dGetS P.params (pyLower ⟨c :: l⟩) = some td)
    (hname : td.name = some n) (hnk : some n ≠ some (pyLower ⟨c :: l⟩))
    (hmax : td.argmax = some 0) :
    process_word P st ⟨'-' :: c :: l⟩ sf =
      .ok ({ st with data := dSet st.data (some n) (.vBool true) }, false) := by
  have hlstrip : pyLstripDash ⟨'-' :: c :: l⟩ = ⟨c :: l⟩ := by
    simp [pyLstripDash, List.dropWhile, hc]
  simp only [process_word, hlstrip]
  simp only [hget, hname, hmax]
  simp [hc, hnk]

/-- Membership in the bundle-eligible intersection: every surviving pair
is a single-character short-flag key whose character occurs in the
lowercased token key. -/
theorem bundleFlags_mem (sfl : List String) (key : String) (f : String)
    (c : Char) (h : (f, c) ∈ bundleFlags sfl key) :
    f.data = [c] ∧ key.data.contains c = true := by
  simp only [bundleFlags, List.mem_filterMap] at h
  obtain ⟨a, ha, hmatch⟩ := h
  match hd : a.data with
  | [] => rw [hd] at hmatch; simp at hmatch
  | [c'] =>
    rw [hd] at hmatch
    simp at hmatch
    obtain ⟨hmem, h1, h2⟩ := hmatch
    subst h1
    subst h2
    exact ⟨hd, by simpa using hmem⟩
  | c1 :: c2 :: cs => rw [hd] at hmatch; simp at hmatch

/-- Specification of the bundling loop: provided every peeled short-flag
key resolves in `params` (guaranteed for constructed parsers, whose
`short_flags` are lookup keys), the loop succeeds, leaves the current
capture target untouched, marks exactly the corresponding options
boolean-true, changes no other accumulator, and strips exactly the
peeled characters from the token. -/
theorem applyBundle_spec (P : ArgumentParser)
    (joined : List (String × Char)) :
    ∀ (st : PState) (arg : String),
    (∀ fc ∈ joined, (dGetS P.params fc.1).isSome) →
    ∃ st2, applyBundle P st arg joined =
        .ok (st2, ⟨arg.data.filter
          (fun ch => !(joined.any (fun fc => fc.2 == ch)))⟩) ∧
      st2.current_key = st.current_key ∧
      st2.current_dict = st.current_dict ∧
      (∀ fc ∈ joined, ∀ v, dGetS P.params fc.1 = some v →
        dGet st2.data v.name = some (.vBool true)) ∧
      (∀ k, (∀ fc ∈ joined, ∀ v, dGetS P.params fc.1 = some v → k ≠ v.name) →
        dGet st2.data k = dGet st.data k) := by
  induction joined with
  | nil =>
    intro st arg hfound
    have hf : arg.data.filter
        (fun ch => !(([] : List (String × Char)).any (fun fc => fc.2 == ch))) =
        arg.data := by
      simp
    refine ⟨st, ?_, rfl, rfl, ?_, ?_⟩
    · rw [show (⟨arg.data.filter (fun ch =>
        !(([] : List (String × Char)).any (fun fc => fc.2 == ch)))⟩ : String) =
        arg from by rw [hf]]
      rfl
    · intro fc hfc
      simp at hfc
    · intro k hk
      rfl
  | cons fc0 rest ih =>
    intro st arg hfound
    obtain ⟨f, c⟩ := fc0
    obtain ⟨v0, hv0⟩ := Option.isSome_iff_exists.mp
      (hfound (f, c) (List.mem_cons_self _ _))
    have hrest : ∀ fc ∈ rest, (dGetS P.params fc.1).isSome :=
      fun fc hfc => hfound fc (List.mem_cons_of_mem _ hfc)
    obtain ⟨st2, happ, hck, hcd, hflags, hframe⟩ :=
      ih { st with data := dSet st.data v0.name (.vBool true) }
        (pyRemoveChar arg c) hrest
    have hfil : (pyRemoveChar arg c).data.filter
        (fun ch => !(rest.any (fun fc => fc.2 == ch))) =
        arg.data.filter
          (fun ch => !((((f, c)) :: rest).any (fun fc => fc.2 == ch))) := by
      show (arg.data.filter (fun ch => ch ≠ c)).filter
        (fun ch => !(rest.any (fun fc => fc.2 == ch))) = _
      rw [List.filter_filter]
      refine List.filter_congr ?_
      intro ch hch
      by_cases hcc : ch = c
      · subst hcc
        simp [List.any_cons]
      · simp [List.any_cons, hcc, Ne.symm hcc]
    refine ⟨st2, ?_, hck, hcd, ?_, ?_⟩
    · simp only [applyBundle, hv0]
      rw [happ, hfil]
    · intro fc hfc v hv
      rcases List.mem_cons.mp hfc with heq | hmem
      · rw [heq] at hv
        have hvv : v = v0 := by
          rw [hv] at hv0
          exact (Option.some.injEq _ _).mp hv0
        subst hvv
        by_cases htouch : ∀ fc' ∈ rest, ∀ v',
            dGetS P.params fc'.1 = some v' → v.name ≠ v'.name
        · rw [hframe v.name htouch]
          exact dGet_dSet_self _ _ _
        · push_neg at htouch
          obtain ⟨fc', hfc', v', hv', hname⟩ := htouch
          rw [hname]
          exact hflags fc' hfc' v' hv'
      · exact hflags fc hmem v hv
    · intro k hk
      have hk0 : k ≠ v0.name := hk (f, c) (List.mem_cons_self _ _) v0 hv0
      rw [hframe k (fun fc hfc v hv => hk fc (List.mem_cons_of_mem _ hfc) v hv)]
      exact dGet_dSet_ne _ _ _ _ hk0

/-- C4 (amended): an arity-0 option never consumes or captures value
tokens through its short alias or bundled form.  Part 1: a single-dash
token spelling the alias `⟨c :: l⟩` (already lowercase) marks the option
boolean-true and ends classification at once, leaving the capture target
unchanged.  Part 2: an unmatched dash-free single-dash token all of whose
characters are bundle-eligible reduces to a bare dash — classification
returns `False` with the current target and every other accumulator
untouched, having only marked the peeled options boolean-true.
Concretely, on `h` → `hidden`, `parse("-h value")` yields boolean
`hidden = true` with `value` as remainder, and on the three-flag Schema
`parse("-h hello world")` leaves the never-targeted `card` and `time`
equal to boolean `false`.  The double-dash long form, excluded by the
amendment, instead opens a capture whose token becomes the field's
string value: `parse("--hidden value")` yields `hidden = "value"`. -/
theorem c4_arity0_alias_boolean :
    (∀ (P : ArgumentParser) (st : PState) (sf : Bool) (c : Char)
       (l : List Char) (td : ArgumentOptions) (n : String),
      c ≠ '-' → pyLower ⟨c :: l⟩ = ⟨c :: l⟩ →
      dGetS P.params ⟨c :: l⟩ = some td → td.name = some n → n ≠ ⟨c :: l⟩ →
      td.argmax = some 0 →
      process_word P st ⟨'-' :: c :: l⟩ sf =
        .ok ({ st with data := dSet st.data (some n) (.vBool true) }, false)) ∧
    (∀ (P : ArgumentParser) (st : PState) (ks : List Char),
      ks ≠ [] → ks.head? ≠ some '-' → '-' ∉ ks →
      pyLower ⟨ks⟩ = ⟨ks⟩ →
      dGetS P.params ⟨ks⟩ = none →
      (∀ c ∈ ks, ∃ f, (f, c) ∈ bundleFlags P.short_flags ⟨ks⟩) →
      (∀ f c, (f, c) ∈ bundleFlags P.short_flags ⟨ks⟩ →
        ∃ v, dGetS P.params f = some v ∧ v.argmax = some 0) →
      ∃ st2, process_word P st ⟨'-' :: ks⟩ true = .ok (st2, false) ∧
        st2.current_key = st.current_key ∧
        st2.current_dict = st.current_dict ∧
        (∀ f c v, (f, c) ∈ bundleFlags P.short_flags ⟨ks⟩ →
          dGetS P.params f = some v → dGet st2.data v.name = some (.vBool true)) ∧
        (∀ k, (∀ f c v, (f, c) ∈ bundleFlags P.short_flags ⟨ks⟩ →
          dGetS P.params f = some v → k ≠ v.name) →
          dGet st2.data k = dGet st.data k)) ∧
    parseWith cfgH false true none "-h value" =
      .ok [("remainder", .vStr "value"), ("hidden", .vBool true)] ∧
    parseWith cfgHCT false true none "-h hello world" =
      .ok [("remainder", .vStr "hello world"), ("hidden", .vBool true),
           ("card", .vBool false), ("time", .vBool false)] ∧
    parseWith cfgH false true none "--hidden value" =
      .ok [("remainder", .vStr ""), ("hidden", .vStr "value")] := by
  refine ⟨?_, ?_, rfl, rfl, rfl⟩
  · intro P st sf c l td n hc hlower hget hname hnk hmax
    refine process_word_alias_flag P st sf c l td n hc ?_ hname ?_ hmax
    · rw [hlower]
      exact hget
    · rw [hlower]
      exact fun hx => hnk (Option.some.injEq _ _ ▸ hx)
  · intro P st ks hne hhead hdash hlower hget hall hfound
    cases ks with
    | nil => exact absurd rfl hne
    | cons k0 ks' =>
      have hk0 : k0 ≠ '-' := by
        intro hc
        apply hhead
        simp [hc]
      have hlstrip : pyLstripDash ⟨'-' :: k0 :: ks'⟩ = ⟨k0 :: ks'⟩ := by
        simp [pyLstripDash, List.dropWhile, hk0]
      cases hjoined : bundleFlags P.short_flags ⟨k0 :: ks'⟩ with
      | nil =>
        exfalso
        obtain ⟨f, hf⟩ := hall k0 (List.mem_cons_self _ _)
        rw [hjoined] at hf
        simp at hf
      | cons j0 jrest =>
        obtain ⟨st2, happ, hck, hcd, hflags, hframe⟩ :=
          applyBundle_spec P (j0 :: jrest) st ⟨'-' :: k0 :: ks'⟩
            (by
              intro fc hfc
              rw [← hjoined] at hfc
              obtain ⟨v, hv, _⟩ := hfound fc.1 fc.2 hfc
              rw [hv]
              rfl)
        have hdash' : ∀ fc ∈ j0 :: jrest, fc.2 ≠ '-' := by
          intro fc hfc hc
          rw [← hjoined] at hfc
          have hcontains := (bundleFlags_mem _ _ _ _ hfc).2
          rw [hc] at hcontains
          exact hdash (by simpa using hcontains)
        have hfil : List.filter
            (fun ch => !((j0 :: jrest).any (fun fc => fc.2 == ch)))
            ('-' :: k0 :: ks') = ['-'] := by
          rw [List.filter_cons]
          have hdpred : (!((j0 :: jrest).any (fun fc => fc.2 == '-'))) = true := by
            simp only [Bool.not_eq_true', List.any_eq_false]
            intro fc hfc
            simp [hdash' fc hfc]
          rw [if_pos hdpred]
          have hnil : List.filter
              (fun ch => !((j0 :: jrest).any (fun fc => fc.2 == ch)))
              (k0 :: ks') = [] := by
            rw [List.filter_eq_nil_iff]
            intro ch hch hcontra
            obtain ⟨f, hf⟩ := hall ch hch
            rw [hjoined] at hf
            have hany : ((j0 :: jrest).any (fun fc => fc.2 == ch)) = true :=
              List.any_eq_true.mpr ⟨(f, ch), hf, by simp⟩
            rw [hany] at hcontra
            simp at hcontra
          rw [hnil]
        have hpw : process_word P st ⟨'-' :: k0 :: ks'⟩ true =
            .ok (st2, false) := by
          simp only [process_word, hlstrip, hlower, hget, hjoined]
          rw [if_pos hk0]
          rw [happ]
          have harg : (⟨List.filter
              (fun ch => !((j0 :: jrest).any (fun fc => fc.2 == ch)))
              ('-' :: k0 :: ks')⟩ : String) = "-" := by
            rw [hfil]
          rw [harg]
          rfl
        exact ⟨st2, hpw, hck, hcd,
          fun f c v hm hv => hflags (f, c) hm v hv,
          fun k hk => hframe k (fun fc hfc v hv => hk fc.1 fc.2 v hfc hv)⟩

/-- The parser instance produced by `mkParser cfgHCT false true none`. -/
def hctParser : ArgumentParser :=
  ⟨[("h", ⟨some "hidden", [], some 0⟩), ("c", ⟨some "card", [], some 0⟩),
    ("t", ⟨some "time", [], some 0⟩)], false, true,
   ["hidden", "card", "time"], ["h", "c", "t"], none, none⟩

/-- C4 witness: the short-alias part applied to the `h` → `hidden`
parser on the token `-h`, and the bundled part applied to the
three-flag parser on the token `-htc`, both in a fresh session. -/
theorem c4_arity0_alias_boolean_witness :
    (process_word hParser st0 "-h" true =
      .ok ({ st0 with data := dSet st0.data (some "hidden") (.vBool true) },
        false)) ∧
    (∃ st2, process_word hctParser st0 "-htc" true = .ok (st2, false) ∧
      st2.current_key = st0.current_key ∧
      st2.current_dict = st0.current_dict ∧
      (∀ f c v, (f, c) ∈ bundleFlags hctParser.short_flags "htc" →
        dGetS hctParser.params f = some v →
        dGet st2.data v.name = some (.vBool true)) ∧
      (∀ k, (∀ f c v, (f, c) ∈ bundleFlags hctParser.short_flags "htc" →
        dGetS hctParser.params f = some v → k ≠ v.name) →
        dGet st2.data k = dGet st0.data k)) :=
  ⟨c4_arity0_alias_boolean.1 hParser st0 true 'h' [] ⟨some "hidden", [], some 0⟩
      "hidden" (by decide) rfl rfl rfl (by decide) rfl,
   c4_arity0_alias_boolean.2.1 hctParser st0 "htc".data (by decide) (by decide)
      (by decide) rfl rfl
      (by
        intro c hc
        have h3 : c = 'h' ∨ c = 't' ∨ c = 'c' := by simpa using hc
        rcases h3 with rfl | rfl | rfl
        · exact ⟨"h", by decide⟩
        · exact ⟨"t", by decide⟩
        · exact ⟨"c", by decide⟩)
      (by
        intro f c hfc
        rw [show bundleFlags hctParser.short_flags ⟨"htc".data⟩ =
          [("h", 'h'), ("c", 'c'), ("t", 't')] from rfl] at hfc
        have h3 : (f, c) = ("h", 'h') ∨ (f, c) = ("c", 'c') ∨
            (f, c) = ("t", 't') := by simpa using hfc
        rcases h3 with h | h | h <;>
          (simp only [Prod.mk.injEq] at h
           obtain ⟨rfl, rfl⟩ := h)
        · exact ⟨⟨some "hidden", [], some 0⟩, rfl, rfl⟩
        · exact ⟨⟨some "card", [], some 0⟩, rfl, rfl⟩
        · exact ⟨⟨some "time", [], some 0⟩, rfl, rfl⟩)⟩

/-- With the `replace` policy on, the raw token text passed to
`process_word` only matters for classification, never for the state
update made by `pwTail`: the no-replace branch that buffers the raw text
is unreachable. -/
theorem pwTail_arg_irrelevant (P : ArgumentParser) (st : PState)
    (tdOpt : Option ArgumentOptions) (a1 a2 : String)
    (hrep : P.replace = true) :
    pwTail P st tdOpt a1 = pwTail P st tdOpt a2 := by
  simp [pwTail, hrep]

/-- Shape of `process_word` on a well-formed double-dash token: the
lowercased key is looked up among the valid names; on success the first
matching option is selected, otherwise classification stays unmatched. -/
theorem process_word_doubledash (P : ArgumentParser) (st : PState) (sf : Bool)
    (c : Char) (l : List Char) (hc : c ≠ '-') :
    process_word P st ⟨'-' :: '-' :: c :: l⟩ sf =
      (if P.valid_names.contains (pyLower ⟨c :: l⟩) then
        pwTail P st (some (findOpt P.params (pyLower ⟨c :: l⟩)))
          ⟨'-' :: '-' :: c :: l⟩
      else pwTail P st (some ⟨none, [], none⟩) ⟨'-' :: '-' :: c :: l⟩) := by
  have hlstrip : pyLstripDash ⟨'-' :: '-' :: c :: l⟩ = ⟨c :: l⟩ := by
    simp [pyLstripDash, List.dropWhile, hc]
  simp only [process_word, hlstrip]
  simp [hc]

/-- Two double-dash tokens with the same lowercased key classify to the
same result under the `replace` policy: flag-name matching only sees the
lowercased text. -/
theorem pw_doubledash_lower (P : ArgumentParser) (st : PState) (sf : Bool)
    (c d : Char) (l m : List Char) (hc : c ≠ '-') (hd : d ≠ '-')
    (hkey : pyLower ⟨c :: l⟩ = pyLower ⟨d :: m⟩) (hrep : P.replace = true) :
    process_word P st ⟨'-' :: '-' :: c :: l⟩ sf =
      process_word P st ⟨'-' :: '-' :: d :: m⟩ sf := by
  rw [process_word_doubledash P st sf c l hc,
    process_word_doubledash P st sf d m hd, hkey]
  cases hmem : P.valid_names.contains (pyLower ⟨d :: m⟩) with
  | true =>
    simp only [hmem, if_true]
    exact pwTail_arg_irrelevant P st _ _ _ hrep
  | false =>
    simp only [hmem, Bool.false_eq_true, if_false]
    exact pwTail_arg_irrelevant P st _ _ _ hrep

/-- C10: case-insensitive flag-name matching — (i) for every Schema in
which `h` is a lookup key for an arity-0 option aliased away from its
canonical name, the tokens `-H` and `-h` classify identically; (ii) under
the `replace` policy `--Color` and `--color` classify identically for
every Schema (matching lowercases the text after the dashes); (iii) the
same holds for the `key=value` tokens `--Color=red` and `--color=red`
through the parse-loop dispatch; and (iv) captured value tokens keep
their original case: `parse("-cl RED x")` on `cl` → `color` yields
`color = "RED"` verbatim. -/
theorem c10_case_insensitive_lookup :
    (∀ (P : ArgumentParser) (st : PState) (sf : Bool) (td : ArgumentOptions)
       (n : String),
      dGetS P.params "h" = some td → td.name = some n → n ≠ "h" →
      td.argmax = some 0 →
      process_word P st "-H" sf = process_word P st "-h" sf) ∧
    (∀ (P : ArgumentParser) (st : PState) (sf : Bool), P.replace = true →
      process_word P st "--Color" sf = process_word P st "--color" sf) ∧
    (∀ (P : ArgumentParser) (st : PState), P.replace = true →
      handleToken P st false "--Color=red" = handleToken P st false "--color=red") ∧
    parseWith cfgCL false true none "-cl RED x" =
      .ok [("remainder", .vStr "x"), ("color", .vStr "RED")] := by
  refine ⟨?_, ?_, ?_, rfl⟩
  · intro P st sf td n hget hname hnk hmax
    show process_word P st ⟨'-' :: 'H' :: []⟩ sf =
      process_word P st ⟨'-' :: 'h' :: []⟩ sf
    rw [process_word_alias_flag P st sf 'H' [] td n (by decide) hget hname
        (fun hx => hnk (by simpa using hx)) hmax,
      process_word_alias_flag P st sf 'h' [] td n (by decide) hget hname
        (fun hx => hnk (by simpa using hx)) hmax]
  · intro P st sf hrep
    show process_word P st ⟨'-' :: '-' :: 'C' :: "olor".data⟩ sf =
      process_word P st ⟨'-' :: '-' :: 'c' :: "olor".data⟩ sf
    exact pw_doubledash_lower P st sf 'C' 'c' "olor".data "olor".data
      (by decide) (by decide) rfl hrep
  · intro P st hrep
    have hin : ∀ st1 : PState,
        process_word P st1 "--Color=red" true =
          process_word P st1 "--color=red" true := by
      intro st1
      show process_word P st1 ⟨'-' :: '-' :: 'C' :: "olor=red".data⟩ true =
        process_word P st1 ⟨'-' :: '-' :: 'c' :: "olor=red".data⟩ true
      exact pw_doubledash_lower P st1 true 'C' 'c' "olor=red".data
        "olor=red".data (by decide) (by decide) rfl hrep
    have e1 : handleToken P st false "--Color=red" =
        (match process_word P st "--Color" false with
         | .error e => .error e
         | .ok (st1, true) => append P st1 "red"
         | .ok (st1, false) =>
           match process_word P st1 "--Color=red" true with
           | .error e => .error e
           | .ok (st2, _) => .ok st2) := rfl
    have e2 : handleToken P st false "--color=red" =
        (match process_word P st "--color" false with
         | .error e => .error e
         | .ok (st1, true) => append P st1 "red"
         | .ok (st1, false) =>
           match process_word P st1 "--color=red" true with
           | .error e => .error e
           | .ok (st2, _) => .ok st2) := rfl
    have hpw : process_word P st "--Color" false =
        process_word P st "--color" false := by
      show process_word P st ⟨'-' :: '-' :: 'C' :: "olor".data⟩ false =
        process_word P st ⟨'-' :: '-' :: 'c' :: "olor".data⟩ false
      exact pw_doubledash_lower P st false 'C' 'c' "olor".data "olor".data
        (by decide) (by decide) rfl hrep
    rw [e1, e2, hpw]
    cases hx : process_word P st "--color" false with
    | error e => rfl
    | ok pr =>
      obtain ⟨st1, b⟩ := pr
      cases b with
      | true => rfl
      | false =>
        show (match process_word P st1 "--Color=red" true with
          | Except.error e => Except.error e
          | Except.ok (st2, _) => Except.ok st2) =
          (match process_word P st1 "--color=red" true with
          | Except.error e => Except.error e
          | Except.ok (st2, _) => Except.ok st2)
        rw [hin st1]

/-- C10 witness: the single-dash part applied to the concrete
`h` → `hidden` parser in a fresh session. -/
theorem c10_case_insensitive_lookup_witness :
    process_word hParser st0 "-H" true = process_word hParser st0 "-h" true :=
  c10_case_insensitive_lookup.1 hParser st0 true ⟨some "hidden", [], some 0⟩
    "hidden" rfl rfl (by decide) rfl

theorem dGet_paramsMap (params : List (String × ArgumentOptions))
    (f : String × ArgumentOptions → PVal)
    (hnodup : (params.map (fun kv => kv.2.name)).Nodup) :
    ∀ kv ∈ params, ∀ n, kv.2.name = some n →
      dGet (params.map (fun kv => (kv.2.name, f kv))) (some n) = some (f kv) := by
  induction params with
  | nil => simp
  | cons p rest ih =>
    intro kv hmem n hname
    have hnd := List.nodup_cons.mp hnodup
    rcases List.mem_cons.mp hmem with heq | hmem'
    · subst heq
      simp [dGet, hname]
    · have hp : ¬ p.2.name = some n := by
        intro hc
        have hmm : kv.2.name ∈ List.map (fun kv => kv.2.name) rest := by
          exact List.mem_map_of_mem _ hmem'
        rw [hname, ← hc] at hmm
        exact hnd.1 hmm
      simp only [List.map_cons, dGet, if_neg hp]
      exact ih hnd.2 kv hmem' n hname

theorem dGetS_decomp (l : List (String × ArgumentOptions)) (k : String)
    (v : ArgumentOptions) (h : dGetS l k = some v) :
    ∃ pre post, l = pre ++ (k, v) :: post := by
  induction l with
  | nil => simp [dGetS] at h
  | cons p rest ih =>
    by_cases hp : p.1 = k
    · simp only [dGetS, if_pos hp, Option.some.injEq] at h
      refine ⟨[], rest, ?_⟩
      rw [List.nil_append, ← hp, ← h]
    · simp only [dGetS, if_neg hp] at h
      obtain ⟨pre, post, hsplit⟩ := ih h
      exact ⟨p :: pre, post, by rw [hsplit]; rfl⟩

theorem finishLoop_append (a b : List (String × ArgumentOptions)) :
    ∀ data, finishLoop (a ++ b) data = finishLoop b (finishLoop a data) := by
  induction a with
  | nil => intro data; rfl
  | cons p rest ih =>
    intro data
    simp only [List.cons_append, finishLoop]
    exact ih _

/-- C5 (amended): for every Schema with pairwise distinct,
hyphen-replacement-stable option names, none of them spelled
`remainder`, parsing the empty string yields: with no default key a
`remainder` field equal to `""` and every option field defaulted (arity-0
options to `False`, the rest to `None`); with a (non-flag) default key
configured, the default-key field equal to the empty string — present,
not absent — and every other option field defaulted the same way. -/
theorem c5_empty_parse (P : ArgumentParser)
    (hnodup : (P.params.map (fun kv => kv.2.name)).Nodup)
    (hrepl : ∀ kv ∈ P.params, kv.2.name.map pyReplDash = kv.2.name)
    (hrem : ∀ kv ∈ P.params, kv.2.name ≠ some "remainder") :
    (P.defaultKey = none →
      ∃ r, parse P "" = .ok r ∧ rGet r "remainder" = some (.vStr "") ∧
        ∀ kv ∈ P.params, ∀ n, kv.2.name = some n →
          rGet r n = some (if kv.2.argmax.getD (-1) = 0 then PVal.vBool false
            else PVal.vNone)) ∧
    (∀ d vd nd, P.defaultKey = some d → d ≠ "" →
      dGetS P.params d = some vd → P.defaultName = some nd →
      vd.name = some nd → vd.argmax.getD (-1) ≠ 0 →
      ∃ r, parse P "" = .ok r ∧ rGet r nd = some (.vStr "") ∧
        ∀ kv ∈ P.params, ∀ n, kv.2.name = some n → n ≠ nd →
          rGet r n = some (if kv.2.argmax.getD (-1) = 0 then PVal.vBool false
            else PVal.vNone)) := by
  have hval : ∀ kv : String × ArgumentOptions,
      (if kv.2.argmax.getD (-1) == 0 then PVal.vBool false else PVal.vNone) =
      (if kv.2.argmax.getD (-1) = 0 then PVal.vBool false else PVal.vNone) := by
    intro kv
    by_cases hf : kv.2.argmax.getD (-1) = 0 <;> simp [hf]
  constructor
  · intro hdk
    obtain ⟨params, force, replace, vn, sf, dk, dn⟩ := P
    simp only at hdk hnodup hrepl hrem ⊢
    subst hdk
    have hparse : parse ⟨params, force, replace, vn, sf, none, dn⟩ "" =
        .ok ((finishLoop params [(some "remainder", .vStr "")]).filterMap
          (fun kv => kv.1.map (fun s => (s, kv.2)))) := rfl
    have hdisj : ∀ kv ∈ params,
        dGet [(some "remainder", PVal.vStr "")] kv.2.name = none := by
      intro kv hk
      simp [dGet, Ne.symm (hrem kv hk)]
    rw [finishLoop_disjoint params _ hnodup hrepl hdisj] at hparse
    refine ⟨_, hparse, ?_, ?_⟩
    · rw [rGet_filterMap]
      exact dGet_append_of_some _ _ _ _ (by simp [dGet])
    · intro kv hk n hname
      have hnr : (some n : DKey) ≠ some "remainder" := hname ▸ hrem kv hk
      rw [rGet_filterMap]
      rw [dGet_append_of_none _ _ _ (by simp [dGet, Ne.symm hnr])]
      rw [dGet_paramsMap params _ hnodup kv hk n hname]
      rw [hval kv]
  · intro d vd nd hdk hdne hvd hdn hvdn hflag
    obtain ⟨params, force, replace, vn, sf, dk, dn⟩ := P
    simp only at hdk hdn hvd hnodup hrepl hrem ⊢
    subst hdk
    subst hdn
    have hinit : initState ⟨params, force, replace, vn, sf, some d, some nd⟩ =
        .ok ⟨some nd, vd, [(some nd, .vList [])]⟩ := by
      simp [initState, hdne, hvd]
    have hparse : parse ⟨params, force, replace, vn, sf, some d, some nd⟩ "" =
        .ok ((finishLoop params [(some nd, .vList [])]).filterMap
          (fun kv => kv.1.map (fun s => (s, kv.2)))) := by
      unfold parse
      rw [hinit]
      rfl
    obtain ⟨pre, post, hsplit⟩ := dGetS_decomp params d vd hvd
    subst hsplit
    have hmapn : (pre ++ (d, vd) :: post).map (fun kv => kv.2.name) =
        pre.map (fun kv => kv.2.name) ++
          some nd :: post.map (fun kv => kv.2.name) := by
      simp [hvdn]
    rw [hmapn] at hnodup
    obtain ⟨hnd_pre, hnd_mid, hdisj_pm⟩ := List.nodup_append.mp hnodup
    have hnd_cons := List.nodup_cons.mp hnd_mid
    have hnd_pre_nd : (some nd : DKey) ∉ pre.map (fun kv => kv.2.name) :=
      fun hmm => hdisj_pm hmm (List.mem_cons_self _ _)
    have hname_pre : ∀ p ∈ pre, p.2.name ≠ (some nd : DKey) := by
      intro p hp hc
      have hmm : p.2.name ∈ pre.map (fun kv => kv.2.name) := by
        exact List.mem_map_of_mem _ hp
      rw [hc] at hmm
      exact hnd_pre_nd hmm
    have hname_post : ∀ p ∈ post, p.2.name ≠ (some nd : DKey) := by
      intro p hp hc
      have hmm : p.2.name ∈ post.map (fun kv => kv.2.name) := by
        exact List.mem_map_of_mem _ hp
      rw [hc] at hmm
      exact hnd_cons.1 hmm
    have hname_post_pre : ∀ p ∈ post,
        p.2.name ∉ pre.map (fun kv => kv.2.name) := by
      intro p hp hc
      have hmm : p.2.name ∈ post.map (fun kv => kv.2.name) := by
        exact List.mem_map_of_mem _ hp
      exact hdisj_pm hc (List.mem_cons_of_mem _ hmm)
    have hstep1 : finishLoop pre [(some nd, .vList [])] =
        [(some nd, PVal.vList [])] ++ pre.map (fun kv => (kv.2.name,
          if kv.2.argmax.getD (-1) == 0 then PVal.vBool false
          else PVal.vNone)) := by
      refine finishLoop_disjoint pre _ hnd_pre
        (fun p hp => hrepl p (List.mem_append_left _ hp)) ?_
      intro p hp
      simp [dGet, Ne.symm (hname_pre p hp)]
    have hpremem : ∀ m : DKey, (∀ p ∈ pre, p.2.name ≠ m) →
        dGet (pre.map (fun kv => (kv.2.name,
          if kv.2.argmax.getD (-1) == 0 then PVal.vBool false
          else PVal.vNone))) m = none := by
      intro m hm
      rw [dGet_eq_none_iff]
      intro q hq
      obtain ⟨p, hp, rfl⟩ := List.mem_map.mp hq
      exact hm p hp
    have hbeq : (vd.argmax.getD (-1) == 0) = false := by simpa using hflag
    have hreplnd : pyReplDash nd = nd := by
      have := hrepl (d, vd) (List.mem_append_right _ (List.mem_cons_self _ _))
      rw [hvdn] at this
      simpa using this
    have hstep2 : finishLoop ((d, vd) :: post)
        ([(some nd, PVal.vList [])] ++ pre.map (fun kv => (kv.2.name,
          if kv.2.argmax.getD (-1) == 0 then PVal.vBool false
          else PVal.vNone))) =
        pre.map (fun kv => (kv.2.name,
          if kv.2.argmax.getD (-1) == 0 then PVal.vBool false
          else PVal.vNone)) ++ [(some nd, PVal.vStr "")] ++
        post.map (fun kv => (kv.2.name,
          if kv.2.argmax.getD (-1) == 0 then PVal.vBool false
          else PVal.vNone)) := by
      simp only [finishLoop, List.singleton_append, hvdn, hbeq, joinSpace]
      rw [show dPop ((some nd, PVal.vList []) :: pre.map (fun kv => (kv.2.name,
          if kv.2.argmax.getD (-1) == 0 then PVal.vBool false
          else PVal.vNone))) (some nd) = some (PVal.vList [], pre.map
          (fun kv => (kv.2.name,
            if kv.2.argmax.getD (-1) == 0 then PVal.vBool false
            else PVal.vNone))) from by simp [dPop]]
      rw [show Option.map pyReplDash (some nd) = some nd from by simp [hreplnd]]
      rw [dSet_eq_append_of_dGet _ _ _ (hpremem _ hname_pre)]
      rw [finishLoop_disjoint post _ hnd_cons.2
        (fun p hp => hrepl p (List.mem_append_right _ (List.mem_cons_of_mem _ hp)))
        (fun p hp => by
          rw [dGet_append_of_none _ _ _ (hpremem _ (fun q hq hc =>
            hname_post_pre p hp (by
              rw [← hc]
              exact List.mem_map_of_mem _ hq)))]
          simp [dGet, Ne.symm (hname_post p hp)])]
      simp [List.append_assoc, joinSpace]
    rw [finishLoop_append pre ((d, vd) :: post), hstep1, hstep2] at hparse
    refine ⟨_, hparse, ?_, ?_⟩
    · rw [rGet_filterMap, List.append_assoc]
      rw [dGet_append_of_none _ _ _ (hpremem _ hname_pre)]
      simp [dGet]
    · intro kv hk n hname hn_ne
      rw [rGet_filterMap, List.append_assoc]
      have hnr : (some n : DKey) ≠ some nd := by
        intro hc
        exact hn_ne (by simpa using hc)
      rcases List.mem_append.mp hk with hpre | hmid
      · exact dGet_append_of_some _ _ _ _
          (by rw [dGet_paramsMap pre _ hnd_pre kv hpre n hname, hval kv])
      · rcases List.mem_cons.mp hmid with heq | hpost
        · exfalso
          apply hn_ne
          have : vd.name = some n := by rw [heq] at hname; exact hname
          rw [hvdn] at this
          simpa using this.symm
        · rw [dGet_append_of_none _ _ _ (hpremem _ (fun q hq hc =>
            hname_post_pre kv hpost (by
              rw [hname, ← hc]
              exact List.mem_map_of_mem _ hq)))]
          rw [dGet_append_of_none _ _ _ (by simp [dGet, Ne.symm hnr])]
          rw [dGet_paramsMap post _ hnd_cons.2 kv hpost n hname, hval kv]

/-- The parser instance produced by
`mkParser [("c", default-options)] false true (some "c")`: single option
`c` acting as the default key. -/
def cParser : ArgumentParser :=
  ⟨[("c", ⟨some "c", [], none⟩)], false, true, ["c"], [], some "c", some "c"⟩

/-- C5 witness: the empty-parse theorem applied to the concrete
`h` → `hidden` parser (no default key) and to the concrete single-option
default-key parser `cParser`. -/
theorem c5_empty_parse_witness :
    (∃ r, parse hParser "" = .ok r ∧ rGet r "remainder" = some (.vStr "") ∧
      ∀ kv ∈ hParser.params, ∀ n, kv.2.name = some n →
        rGet r n = some (if kv.2.argmax.getD (-1) = 0 then PVal.vBool false
          else PVal.vNone)) ∧
    (∃ r, parse cParser "" = .ok r ∧ rGet r "c" = some (.vStr "") ∧
      ∀ kv ∈ cParser.params, ∀ n, kv.2.name = some n → n ≠ "c" →
        rGet r n = some (if kv.2.argmax.getD (-1) = 0 then PVal.vBool false
          else PVal.vNone)) :=
  ⟨(c5_empty_parse hParser (by decide) (by decide) (by decide)).1 rfl,
   (c5_empty_parse cParser (by decide) (by decide) (by decide)).2 "c"
     ⟨some "c", [], none⟩ "c" rfl (by decide) rfl rfl rfl (by decide)⟩

/-- C8: short-flag bundling — on the Schema with bundle-eligible arity-0
short flags `h` → `hidden`, `c` → `card`, `t` → `time` and no default
key, `parse("-htc value")` marks all three options boolean-true (every
bundle-eligible character is peeled off, the token reducing to a bare
dash ends classification with no further capture) and leaves
`remainder = "value"`. -/
theorem c8_short_flag_bundling :
    parseWith cfgHCT false true none "-htc value" =
      .ok [("remainder", .vStr "value"), ("hidden", .vBool true),
           ("card", .vBool true), ("time", .vBool true)] := rfl

end Nokari
